import Mathlib

/-!
Verification of the OddsBot front-end odds-aggregation and rendering logic.

The embedding covers two source variants:

* the `renderMatches` / `renderMarkets` / `renderMarketSection` pipeline
  (the primary aggregator), and
* the `loadMatchDetails` pipeline of the second `app.js` variant, with its
  special cased `h2h` table (preferred outcome order, unsorted bookmaker
  rows, fair-probability card section).

JavaScript objects with string keys are modelled as association lists in
insertion order (`objSet` updates an existing key in place, otherwise
appends).  JavaScript numbers are modelled as `Rat` (no NaN / -0; none of
the verified properties depend on float rounding).  `Array.prototype.sort()`
on strings is modelled by insertion sort under the lexicographic order
`strLe` on code points; JS compares UTF-16 code units, which agrees with
code-point order on strings of BMP characters such as market codes and
bookmaker names.  JS object key enumeration places integer-like keys first;
the model uses pure insertion order, which agrees for the non-numeric keys
used here.
-/

namespace OddsBot

/-- Lexicographic order on lists of characters, comparing code points.
Mirrors the ordering used by the default JavaScript string sort. -/
def lexLe : List Char → List Char → Bool
  | [], _ => true
  | _ :: _, [] => false
  | a :: as, b :: bs => if a < b then true else if b < a then false else lexLe as bs

/-- Order on strings used to model the default JavaScript `sort()`. -/
def strLe (a b : String) : Prop := lexLe a.data b.data = true

instance : DecidableRel strLe := fun a b =>
  inferInstanceAs (Decidable (lexLe a.data b.data = true))

/-- Association-list model of a JavaScript object with string keys:
`obj[k] = v` updates the first entry with key `k` in place, or appends. -/
def objSet {α : Type} : List (String × α) → String → α → List (String × α)
  | [], k, v => [(k, v)]
  | (k', v') :: rest, k, v =>
      if k' = k then (k', v) :: rest else (k', v') :: objSet rest k v

/-- Association-list model of a JavaScript property read `obj[k]`,
returning `none` for `undefined`. -/
def objGet {α : Type} : List (String × α) → String → Option α
  | [], _ => none
  | (k', v') :: rest, k => if k' = k then some v' else objGet rest k

/-- Keys of a modelled object, in insertion order (`Object.keys`). -/
def keysOf {α : Type} (m : List (String × α)) : List String := m.map Prod.fst

/-- Left-biased choice on options, used to state last-write-wins facts. -/
def oOr {α : Type} : Option α → Option α → Option α
  | some a, _ => some a
  | none, b => b

/-- Model of `Set.add`: JavaScript sets keep insertion order and ignore
elements already present. -/
def setAdd (s : List String) (x : String) : List String :=
  if x ∈ s then s else s ++ [x]

/-- One raw odds quote of the odds feed.  `line` holds the stringified
line value; `none` models an absent (`null`/`undefined`) line. -/
structure OddsQuote where
  market_code : String
  outcome : String
  bookmaker_name : String
  price : Rat
  line : Option String
deriving DecidableEq

/-- One entry of the fair (no-vig reference) feed. -/
structure FairQuote where
  market_code : String
  outcome : String
  fair_probability : Rat
  no_vig_odds : Rat
  margin : Rat
  reference_bookmaker_name : String
deriving DecidableEq

/-- Content of one rendered table cell: a numeric value, the `-`
placeholder, or the empty string the app variant uses for a missing
no-vig value. -/
inductive Cell where
  | dash
  | blank
  | val (v : Rat)
deriving DecidableEq

/-- Composite market key from `renderMarkets`: the market code, suffixed
with the line when one is present. -/
def mkMarketKey (mc : String) (l : Option String) : String :=
  match l with
  | none => mc
  | some s => mc ++ (" (line " ++ s ++ ")")

/-- Market key of a quote (`renderMarkets`, key construction). -/
def marketKey (q : OddsQuote) : String := mkMarketKey q.market_code q.line

/-- Character class of the JavaScript regex `\s`. -/
def isJsSpace (c : Char) : Bool :=
  c = ' ' || c = '\t' || c = '\n' || c = '\x0b' || c = '\x0c' || c = '\r' ||
  c = '\u00A0' || c = '\u1680' || ('\u2000' ≤ c && c ≤ '\u200A') ||
  c = '\u2028' || c = '\u2029' || c = '\u202F' || c = '\u205F' ||
  c = '\u3000' || c = '\uFEFF'

/-- Line terminators, which the JavaScript regex `.` does not match. -/
def isLineTerm (c : Char) : Bool :=
  c = '\n' || c = '\r' || c = '\u2028' || c = '\u2029'

/-- Accepts `mid ++ [rparen]` where `mid` has no line terminator: the
shape required of the characters after `(line` by `.*\)` anchored at the
end of the string. -/
def tailCloses : List Char → Bool
  | [] => false
  | [c] => c == ')'
  | c :: c' :: rest => !isLineTerm c && tailCloses (c' :: rest)

/-- Whether a tail of the key matches the optional group
`\s*\(line.*\)` of the regex in `renderMarketSection`, anchored at the
end of the string. -/
def lineSuffixMatch (cs : List Char) : Bool :=
  (decide ((cs.dropWhile isJsSpace).take 5 = ['(', 'l', 'i', 'n', 'e'])) &&
    tailCloses ((cs.dropWhile isJsSpace).drop 5)

/-- Result of the anchored match `key.match(/^(.*?)(\s*\(line.*\))?$/)`:
`some r` means the regex matches with first capture group `r`, the
shortest line-terminator-free prefix whose tail matches the optional
group or is empty; `none` means the whole regex fails, which happens
when a line terminator is reached before any tail match, since the lazy
`(.*?)` cannot consume a line terminator. -/
def stripAux : List Char → Option (List Char)
  | [] => some []
  | c :: cs =>
      if lineSuffixMatch (c :: cs) then some []
      else if isLineTerm c then none
      else (stripAux cs).map (fun r => c :: r)

/-- Base market code recovered from a composite key:
`key.match(/^(.*?)(\s*\(line.*\))?$/)` followed by the fallback
`match ? match[1] : key` in `renderMarketSection` — a failed match
keeps the full key as the base. -/
def stripLineSuffix (s : String) : String :=
  match stripAux s.data with
  | some r => String.mk r
  | none => s

/-- Nested mapping `outcome -> no-vig price`. -/
abbrev OutcomeMap := List (String × Rat)

/-- Nested mapping `bookmaker -> outcome -> price`. -/
abbrev BookieMap := List (String × OutcomeMap)

/-- Top-level mapping `market key -> bookmaker -> outcome -> price`. -/
abbrev MarketMap := List (String × BookieMap)

/-- One `fairData.forEach` step of `renderMarkets`:
`noVigByMarket[market][outcome] = item.no_vig_odds`. -/
def noVigStep (m : List (String × OutcomeMap)) (item : FairQuote) :
    List (String × OutcomeMap) :=
  objSet m item.market_code
    (objSet ((objGet m item.market_code).getD []) item.outcome item.no_vig_odds)

/-- Mapping `market_code -> outcome -> no_vig_odds` built from the fair
feed (`renderMarkets`, first loop). -/
def noVigByMarket (fairData : List FairQuote) : List (String × OutcomeMap) :=
  fairData.foldl noVigStep []

/-- One `oddsData.forEach` step of `renderMarkets`:
`oddsByMarket[key][bm][item.outcome] = item.price`. -/
def oddsStep (m : MarketMap) (item : OddsQuote) : MarketMap :=
  objSet m (marketKey item)
    (objSet ((objGet m (marketKey item)).getD []) item.bookmaker_name
      (objSet ((objGet ((objGet m (marketKey item)).getD []) item.bookmaker_name).getD [])
        item.outcome item.price))

/-- Mapping `(market_code + line) -> bookmaker -> outcome -> price`
built from the odds feed (`renderMarkets`, second loop). -/
def oddsByMarket (oddsData : List OddsQuote) : MarketMap :=
  oddsData.foldl oddsStep []

/-- Market keys enumerated by `renderMarkets`: `Object.keys` of the odds
mapping, sorted (`marketKeys.sort()`). -/
def marketKeys (oddsData : List OddsQuote) : List String :=
  List.insertionSort strLe (keysOf (oddsByMarket oddsData))

/-- Outcome columns of one market section: outcomes of the fair mapping
for the base code (when present) and of every bookmaker entry, collected
into an insertion-ordered set and then sorted (`renderMarketSection`). -/
def outcomeColumns (fairInner : Option OutcomeMap) (bookieMap : BookieMap) :
    List String :=
  let s0 : List String :=
    match fairInner with
    | some inner => (keysOf inner).foldl setAdd []
    | none => []
  let s1 := bookieMap.foldl (fun s e => (keysOf e.2).foldl setAdd s) s0
  List.insertionSort strLe s1

/-- ASCII lowering of one character, the fragment of
`String.prototype.toLowerCase` relevant to the market codes compared
against `match_outcome`. -/
def asciiToLower (c : Char) : Char :=
  if 'A' ≤ c ∧ c ≤ 'Z' then Char.ofNat (c.toNat + 32) else c

/-- Model of `baseMarketCode.toLowerCase()`. -/
def strToLower (s : String) : String := String.mk (s.data.map asciiToLower)

/-- Market title shown above the table (`match_outcome` is localised). -/
def displayTitle (base : String) : String :=
  if strToLower base = "match_outcome" then "Ottelutulos" else base

/-- No-vig reference cell of `renderMarketSection`: the JS
`nvValue ? Number(nvValue).toFixed(2) : '-'` renders the placeholder for
a missing entry and for the falsy value `0`. -/
def noVigCell (fairInner : Option OutcomeMap) (o : String) : Cell :=
  match fairInner with
  | none => Cell.dash
  | some inner =>
    match objGet inner o with
    | none => Cell.dash
    | some v => if v = 0 then Cell.dash else Cell.val v

/-- Bookmaker price cell of `renderMarketSection`: the JS
`value !== undefined ? Number(value).toFixed(2) : '-'`. -/
def priceCell (bookieMap : BookieMap) (bm o : String) : Cell :=
  match objGet ((objGet bookieMap bm).getD []) o with
  | some v => Cell.val v
  | none => Cell.dash

/-- One rendered market section: title, ordered outcome columns, the
no-vig reference row and one row of price cells per bookmaker. -/
structure MarketTable where
  key : String
  title : String
  outcomes : List String
  noVigRow : List Cell
  rows : List (String × List Cell)
deriving DecidableEq

/-- Model of `renderMarketSection(key, bookieMap, noVigByMarket)`. -/
def renderMarketSection (key : String) (bookieMap : BookieMap)
    (noVig : List (String × OutcomeMap)) : MarketTable :=
  let base := stripLineSuffix key
  let fairInner := objGet noVig base
  let outcomes := outcomeColumns fairInner bookieMap
  { key := key
    title := displayTitle base
    outcomes := outcomes
    noVigRow := outcomes.map (noVigCell fairInner)
    rows := (List.insertionSort strLe (keysOf bookieMap)).map
      (fun bm => (bm, outcomes.map (priceCell bookieMap bm))) }

/-- Output of `renderMarkets`: either the single no-odds notice or the
ordered list of market tables. -/
inductive RenderOutput where
  | noOdds
  | tables (ts : List MarketTable)
deriving DecidableEq

/-- Model of `renderMarkets(fairData, oddsData)`. -/
def renderMarkets (fairData : List FairQuote) (oddsData : List OddsQuote) :
    RenderOutput :=
  let noVig := noVigByMarket fairData
  let om := oddsByMarket oddsData
  let keys := List.insertionSort strLe (keysOf om)
  if keys.isEmpty then RenderOutput.noOdds
  else RenderOutput.tables
    (keys.map (fun k => renderMarketSection k ((objGet om k).getD []) noVig))

/-- Table emitted for one market key (section rendered by
`renderMarkets` for `key`). -/
def tableOf (fairData : List FairQuote) (oddsData : List OddsQuote)
    (k : String) : MarketTable :=
  renderMarketSection k ((objGet (oddsByMarket oddsData) k).getD [])
    (noVigByMarket fairData)

/-- Tables emitted by `renderMarkets`, empty when the notice is shown. -/
def emittedTables (fairData : List FairQuote) (oddsData : List OddsQuote) :
    List MarketTable :=
  match renderMarkets fairData oddsData with
  | RenderOutput.noOdds => []
  | RenderOutput.tables ts => ts

/-- Last price of the feed for a (market key, bookmaker, outcome)
triple: the quote occurring last wins. -/
def oddsLast (oddsData : List OddsQuote) (k bm o : String) : Option Rat :=
  ((oddsData.filter (fun q =>
      marketKey q == k && q.bookmaker_name == bm && q.outcome == o)).getLast?).map
    (fun q => q.price)

/-- Last no-vig value of the fair feed for a (market code, outcome)
pair. -/
def fairLast (fairData : List FairQuote) (mc o : String) : Option Rat :=
  ((fairData.filter (fun f => f.market_code == mc && f.outcome == o)).getLast?).map
    (fun f => f.no_vig_odds)

/-- Read of the aggregated odds mapping at a (key, bookmaker, outcome)
triple, `none` when any level is absent. -/
def lookup3 (m : MarketMap) (k bm o : String) : Option Rat :=
  objGet ((objGet ((objGet m k).getD []) bm).getD []) o

/-- Read of the fair mapping at a (market code, outcome) pair. -/
def lookup2 (m : List (String × OutcomeMap)) (mc o : String) : Option Rat :=
  objGet ((objGet m mc).getD []) o

/-! Model of the second `app.js` variant (`loadMatchDetails`). -/

/-- Grouping `(markets[row.market_code] ||= []).push(row)` of the app
variant: rows per market code, codes in first-occurrence order. -/
def appMarkets (oddsData : List OddsQuote) : List (String × List OddsQuote) :=
  oddsData.foldl
    (fun m row => objSet m row.market_code ((objGet m row.market_code).getD [] ++ [row]))
    []

/-- Rows of the app variant's `h2h` market card. -/
def appH2hRows (oddsData : List OddsQuote) : List OddsQuote :=
  (objGet (appMarkets oddsData) "h2h").getD []

/-- No-vig lookup of the app variant's `h2h` card, built from the fair
feed entries whose market code is `h2h`. -/
def appNoVigH2h (fairData : List FairQuote) : OutcomeMap :=
  fairData.foldl
    (fun m item =>
      if item.market_code = "h2h" then objSet m item.outcome item.no_vig_odds else m)
    []

/-- Outcome set of the app variant's `h2h` card (insertion order). -/
def appOutcomesSet (rows : List OddsQuote) : List String :=
  rows.foldl (fun s r => setAdd s r.outcome) []

/-- Bookmaker mapping of the app variant's `h2h` card. -/
def appBookmakerMap (rows : List OddsQuote) : BookieMap :=
  rows.foldl
    (fun m r =>
      objSet m r.bookmaker_name
        (objSet ((objGet m r.bookmaker_name).getD []) r.outcome r.price))
    []

/-- Preferred order of the canonical outcomes in the app variant. -/
def preferredOrder : List String := ["home", "draw", "away"]

/-- Outcome columns of the app variant's `h2h` table: canonical outcomes
present in the odds rows first, then the remaining odds outcomes in
first-occurrence order.  The fair feed contributes no columns. -/
def appH2hOutcomes (oddsData : List OddsQuote) : List String :=
  let s := appOutcomesSet (appH2hRows oddsData)
  preferredOrder.filter (fun o => s.contains o) ++
    s.filter (fun o => !(preferredOrder.contains o))

/-- Bookmaker row order of the app variant's `h2h` table:
`Object.keys(bookmakerMap)` without sorting. -/
def appH2hBookmakers (oddsData : List OddsQuote) : List String :=
  keysOf (appBookmakerMap (appH2hRows oddsData))

/-- No-vig cell of the app variant's `h2h` table: a numeric value is
always formatted (`typeof val === 'number'`), including `0`; a missing
value renders as the empty string. -/
def appNoVigCell (noVig : OutcomeMap) (o : String) : Cell :=
  match objGet noVig o with
  | some v => Cell.val v
  | none => Cell.blank

/-- Observable output of the app variant's `loadMatchDetails`: whether
the empty-odds notice is shown, the order of market cards, and the fair
cards rendered into the fair container. -/
structure AppDetails where
  oddsEmptyNotice : Bool
  marketCodes : List String
  fairSection : List FairQuote
deriving DecidableEq

/-- Model of the app variant's `loadMatchDetails` after both fetches
resolve: cards per market code in first-occurrence order, and the fair
section rendered whenever the fair feed is non-empty — also when the
odds feed is empty and the notice is shown. -/
def appLoadMatchDetails (oddsData : List OddsQuote) (fairData : List FairQuote) :
    AppDetails :=
  { oddsEmptyNotice := (keysOf (appMarkets oddsData)).isEmpty
    marketCodes := keysOf (appMarkets oddsData)
    fairSection := if fairData.isEmpty then [] else fairData }

/-! Model of `renderMatches`. -/

/-- One fetched match summary.  `start_time` holds the epoch
milliseconds obtained by `new Date(match.start_time)`, the value the
sort comparator subtracts. -/
structure MatchItem where
  home_team : String
  away_team : String
  start_time : Int
deriving DecidableEq

/-- Order imposed by the comparator
`(a, b) => new Date(a.start_time) - new Date(b.start_time)`. -/
def matchLe (a b : MatchItem) : Prop := a.start_time ≤ b.start_time

instance : DecidableRel matchLe := fun a b =>
  inferInstanceAs (Decidable (a.start_time ≤ b.start_time))

/-- Model of `renderMatches`: the list is sorted in place by start
time, so the returned list is both the render order of the match cards
and the content of the caller's (mutated) array after the call. -/
def renderMatches (ms : List MatchItem) : List MatchItem :=
  List.insertionSort matchLe ms

/-! Order lemmas for the string sort. -/

theorem lexLe_total (as bs : List Char) : lexLe as bs = true ∨ lexLe bs as = true := by
  induction as generalizing bs with
  | nil => left; rfl
  | cons a as ih =>
    cases bs with
    | nil => right; rfl
    | cons b bs =>
      rcases lt_trichotomy a b with h | h | h
      · left; simp [lexLe, h]
      · subst h
        simp only [lexLe, if_neg (lt_irrefl a)]
        exact ih bs
      · right; simp [lexLe, h]

theorem lexLe_trans (as bs cs : List Char) (h1 : lexLe as bs = true)
    (h2 : lexLe bs cs = true) : lexLe as cs = true := by
  induction as generalizing bs cs with
  | nil => rfl
  | cons a as ih =>
    cases bs with
    | nil => simp [lexLe] at h1
    | cons b bs =>
      cases cs with
      | nil => simp [lexLe] at h2
      | cons c cs =>
        by_cases hab : a < b
        · by_cases hbc : b < c
          · simp [lexLe, lt_trans hab hbc]
          · by_cases hcb : c < b
            · simp [lexLe, hbc, hcb] at h2
            · have hbceq : b = c := le_antisymm (not_lt.mp hcb) (not_lt.mp hbc)
              subst hbceq
              simp [lexLe, hab]
        · by_cases hba : b < a
          · simp [lexLe, hab, hba] at h1
          · have haeq : a = b := le_antisymm (not_lt.mp hba) (not_lt.mp hab)
            subst haeq
            simp only [lexLe, if_neg (lt_irrefl a)] at h1
            by_cases hac : a < c
            · simp [lexLe, hac]
            · by_cases hca : c < a
              · simp [lexLe, hac, hca] at h2
              · have haceq : a = c := le_antisymm (not_lt.mp hca) (not_lt.mp hac)
                subst haceq
                simp only [lexLe, if_neg (lt_irrefl a)] at h2 ⊢
                exact ih bs cs h1 h2

theorem lexLe_antisymm (as bs : List Char) (h1 : lexLe as bs = true)
    (h2 : lexLe bs as = true) : as = bs := by
  induction as generalizing bs with
  | nil =>
    cases bs with
    | nil => rfl
    | cons b bs => simp [lexLe] at h2
  | cons a as ih =>
    cases bs with
    | nil => simp [lexLe] at h1
    | cons b bs =>
      by_cases hab : a < b
      · simp [lexLe, hab, asymm hab] at h2
      · by_cases hba : b < a
        · simp [lexLe, hab, hba] at h1
        · have haeq : a = b := le_antisymm (not_lt.mp hba) (not_lt.mp hab)
          subst haeq
          simp only [lexLe, if_neg (lt_irrefl a)] at h1 h2
          rw [ih bs h1 h2]

instance : IsTotal String strLe := ⟨fun a b => lexLe_total a.data b.data⟩

instance : IsTrans String strLe :=
  ⟨fun _ _ _ h1 h2 => lexLe_trans _ _ _ h1 h2⟩

instance : IsAntisymm String strLe :=
  ⟨fun _ _ h1 h2 => String.ext (lexLe_antisymm _ _ h1 h2)⟩

instance : IsTotal MatchItem matchLe :=
  ⟨fun a b => Int.le_total a.start_time b.start_time⟩

instance : IsTrans MatchItem matchLe :=
  ⟨fun _ _ _ h1 h2 => le_trans h1 h2⟩

/-! Lemmas about the JavaScript object model. -/

theorem oOr_none_right {α : Type} (x : Option α) : oOr x none = x := by
  cases x <;> rfl

theorem oOr_assoc {α : Type} (a b c : Option α) :
    oOr (oOr a b) c = oOr a (oOr b c) := by
  cases a <;> rfl

theorem oOr_eq_none_iff {α : Type} (a b : Option α) :
    oOr a b = none ↔ a = none ∧ b = none := by
  cases a <;> simp [oOr]

theorem oOr_map {α β : Type} (f : α → β) (a b : Option α) :
    Option.map f (oOr a b) = oOr (Option.map f a) (Option.map f b) := by
  cases a <;> rfl

theorem objGet_objSet_self {α : Type} (m : List (String × α)) (k : String) (v : α) :
    objGet (objSet m k v) k = some v := by
  induction m with
  | nil => simp [objSet, objGet]
  | cons e rest ih =>
    obtain ⟨k', v'⟩ := e
    by_cases h : k' = k
    · simp [objSet, objGet, h]
    · simp [objSet, objGet, h, ih]

theorem objGet_objSet_ne {α : Type} (m : List (String × α)) (k k' : String) (v : α)
    (h : k' ≠ k) : objGet (objSet m k v) k' = objGet m k' := by
  induction m with
  | nil => simp [objSet, objGet, Ne.symm h]
  | cons e rest ih =>
    obtain ⟨k'', v''⟩ := e
    by_cases h2 : k'' = k
    · subst h2
      simp [objSet, objGet, Ne.symm h]
    · by_cases h3 : k'' = k'
      · subst h3
        simp [objSet, objGet, h2]
      · simp [objSet, objGet, h2, h3, ih]

theorem keysOf_objSet {α : Type} (m : List (String × α)) (k : String) (v : α) :
    keysOf (objSet m k v) =
      if k ∈ keysOf m then keysOf m else keysOf m ++ [k] := by
  induction m with
  | nil => simp [objSet, keysOf]
  | cons e rest ih =>
    obtain ⟨k', v'⟩ := e
    by_cases h : k' = k
    · subst h
      simp [objSet, keysOf]
    · have ihm : List.map Prod.fst (objSet rest k v) =
          if k ∈ List.map Prod.fst rest then List.map Prod.fst rest
          else List.map Prod.fst rest ++ [k] := ih
      simp only [objSet, if_neg h, keysOf, List.map_cons, ihm]
      by_cases h2 : k ∈ List.map Prod.fst rest
      · rw [if_pos h2, if_pos (List.mem_cons_of_mem _ h2)]
      · rw [if_neg h2, if_neg (by simp [List.mem_cons, Ne.symm h, h2])]
        simp

theorem mem_keysOf_objSet {α : Type} (m : List (String × α)) (k : String) (v : α)
    (a : String) : a ∈ keysOf (objSet m k v) ↔ a ∈ keysOf m ∨ a = k := by
  rw [keysOf_objSet]
  by_cases h : k ∈ keysOf m
  · simp only [if_pos h]
    exact ⟨Or.inl, fun h' => h'.elim id (fun ha => ha ▸ h)⟩
  · simp [if_neg h, List.mem_append]

theorem nodup_keysOf_objSet {α : Type} (m : List (String × α)) (k : String) (v : α)
    (hnd : (keysOf m).Nodup) : (keysOf (objSet m k v)).Nodup := by
  rw [keysOf_objSet]
  by_cases h : k ∈ keysOf m
  · simpa [h] using hnd
  · simp only [if_neg h, List.nodup_append]
    refine ⟨hnd, List.nodup_singleton k, ?_⟩
    intro a ha hak
    exact h ((List.mem_singleton.mp hak) ▸ ha)

theorem mem_of_mem_objSet {α : Type} {m : List (String × α)} {k : String} {v : α}
    {e : String × α} (he : e ∈ objSet m k v) : e ∈ m ∨ e = (k, v) := by
  induction m with
  | nil => simpa [objSet] using he
  | cons e' rest ih =>
    obtain ⟨k', v'⟩ := e'
    by_cases h : k' = k
    · subst h
      simp only [objSet, if_pos rfl] at he
      rcases List.mem_cons.mp he with h1 | h1
      · right; exact h1
      · left; exact List.mem_cons_of_mem _ h1
    · simp only [objSet, if_neg h] at he
      rcases List.mem_cons.mp he with h1 | h1
      · left; exact h1 ▸ List.mem_cons_self _ _
      · rcases ih h1 with h2 | h2
        · left; exact List.mem_cons_of_mem _ h2
        · right; exact h2

theorem objGet_mem {α : Type} {m : List (String × α)} {k : String} {v : α}
    (h : objGet m k = some v) : (k, v) ∈ m := by
  induction m with
  | nil => simp [objGet] at h
  | cons e rest ih =>
    obtain ⟨k', v'⟩ := e
    by_cases h2 : k' = k
    · subst h2
      simp only [objGet, if_pos trivial, eq_self_iff_true, if_true,
        Option.some.injEq] at h
      subst h
      exact List.mem_cons_self _ _
    · simp only [objGet, if_neg h2] at h
      exact List.mem_cons_of_mem _ (ih h)

theorem objGet_eq_none_iff {α : Type} (m : List (String × α)) (k : String) :
    objGet m k = none ↔ k ∉ keysOf m := by
  induction m with
  | nil => simp [objGet, keysOf]
  | cons e rest ih =>
    obtain ⟨k', v'⟩ := e
    by_cases h : k' = k
    · subst h
      simp [objGet, keysOf]
    · simp [objGet, keysOf, h, ih, Ne.symm h]

theorem objGet_of_mem_nodup {α : Type} {m : List (String × α)}
    (hnd : (keysOf m).Nodup) {e : String × α} (he : e ∈ m) :
    objGet m e.1 = some e.2 := by
  induction m with
  | nil => simp at he
  | cons e' rest ih =>
    obtain ⟨k', v'⟩ := e'
    simp only [keysOf, List.map_cons, List.nodup_cons] at hnd
    rcases List.mem_cons.mp he with h1 | h1
    · subst h1
      simp [objGet]
    · have hk : k' ≠ e.1 := by
        intro hkeq
        exact hnd.1 (hkeq ▸ (List.mem_map_of_mem Prod.fst h1))
      simp only [objGet, if_neg hk]
      exact ih hnd.2 h1

/-! Lemmas about the insertion-ordered set model. -/

theorem mem_setAdd (s : List String) (x a : String) :
    a ∈ setAdd s x ↔ a ∈ s ∨ a = x := by
  unfold setAdd
  by_cases h : x ∈ s
  · simp only [if_pos h]
    exact ⟨Or.inl, fun h' => h'.elim id (fun ha => ha ▸ h)⟩
  · simp [if_neg h, List.mem_append]

theorem nodup_setAdd (s : List String) (x : String) (h : s.Nodup) :
    (setAdd s x).Nodup := by
  unfold setAdd
  by_cases hx : x ∈ s
  · simpa [hx] using h
  · simp only [if_neg hx, List.nodup_append]
    refine ⟨h, List.nodup_singleton x, ?_⟩
    intro a ha hax
    exact hx ((List.mem_singleton.mp hax) ▸ ha)

theorem mem_foldl_setAdd (l : List String) (s : List String) (a : String) :
    a ∈ l.foldl setAdd s ↔ a ∈ s ∨ a ∈ l := by
  induction l generalizing s with
  | nil => simp
  | cons x l ih =>
    rw [List.foldl_cons, ih, mem_setAdd]
    simp [or_assoc]

theorem nodup_foldl_setAdd (l : List String) (s : List String) (h : s.Nodup) :
    (l.foldl setAdd s).Nodup := by
  induction l generalizing s with
  | nil => exact h
  | cons x l ih => exact ih _ (nodup_setAdd s x h)

theorem mem_foldl_setAdd_nested (bm : BookieMap) (s : List String) (a : String) :
    a ∈ bm.foldl (fun s e => (keysOf e.2).foldl setAdd s) s ↔
      a ∈ s ∨ ∃ e ∈ bm, a ∈ keysOf e.2 := by
  induction bm generalizing s with
  | nil => simp
  | cons e bm ih =>
    rw [List.foldl_cons, ih, mem_foldl_setAdd]
    simp [or_assoc]

theorem nodup_foldl_setAdd_nested (bm : BookieMap) (s : List String)
    (h : s.Nodup) :
    (bm.foldl (fun s e => (keysOf e.2).foldl setAdd s) s).Nodup := by
  induction bm generalizing s with
  | nil => exact h
  | cons e bm ih => exact ih _ (nodup_foldl_setAdd _ _ h)

/-! Last-write-wins lemmas for the aggregation folds. -/

theorem getLast?_cons_oOr {α : Type} (a : α) (l : List α) :
    (a :: l).getLast? = oOr l.getLast? (some a) := by
  cases l with
  | nil => rfl
  | cons b t =>
    rw [List.getLast?_cons_cons]
    cases hx : (b :: t).getLast? with
    | none => exact absurd (List.getLast?_eq_none_iff.mp hx) (by simp)
    | some x => rfl

theorem filterLast_cons {α β : Type} (p : α → Bool) (f : α → β) (q : α)
    (l : List α) :
    ((List.filter p (q :: l)).getLast?).map f =
      oOr (((List.filter p l).getLast?).map f)
        (if p q = true then some (f q) else none) := by
  by_cases hp : p q = true
  · rw [List.filter_cons_of_pos hp, getLast?_cons_oOr, oOr_map, if_pos hp]
    rfl
  · rw [List.filter_cons_of_neg (by simpa using hp), if_neg hp, oOr_none_right]

theorem oddsLast_cons (q : OddsQuote) (l : List OddsQuote) (k bm o : String) :
    oddsLast (q :: l) k bm o =
      oOr (oddsLast l k bm o)
        (if marketKey q = k ∧ q.bookmaker_name = bm ∧ q.outcome = o
         then some q.price else none) := by
  unfold oddsLast
  rw [filterLast_cons]
  congr 1
  have hb : (marketKey q == k && q.bookmaker_name == bm && q.outcome == o) = true ↔
      (marketKey q = k ∧ q.bookmaker_name = bm ∧ q.outcome = o) := by
    simp [Bool.and_eq_true, beq_iff_eq, and_assoc]
  by_cases h : marketKey q = k ∧ q.bookmaker_name = bm ∧ q.outcome = o
  · rw [if_pos (hb.mpr h), if_pos h]
  · rw [if_neg (fun hc => h (hb.mp hc)), if_neg h]

theorem fairLast_cons (f : FairQuote) (l : List FairQuote) (mc o : String) :
    fairLast (f :: l) mc o =
      oOr (fairLast l mc o)
        (if f.market_code = mc ∧ f.outcome = o then some f.no_vig_odds else none) := by
  unfold fairLast
  rw [filterLast_cons]
  congr 1
  have hb : (f.market_code == mc && f.outcome == o) = true ↔
      (f.market_code = mc ∧ f.outcome = o) := by
    simp [Bool.and_eq_true, beq_iff_eq]
  by_cases h : f.market_code = mc ∧ f.outcome = o
  · rw [if_pos (hb.mpr h), if_pos h]
  · rw [if_neg (fun hc => h (hb.mp hc)), if_neg h]

theorem lookup3_oddsStep (acc : MarketMap) (q : OddsQuote) (k bm o : String) :
    lookup3 (oddsStep acc q) k bm o =
      if marketKey q = k ∧ q.bookmaker_name = bm ∧ q.outcome = o then some q.price
      else lookup3 acc k bm o := by
  by_cases hk : marketKey q = k
  · subst hk
    by_cases hbm : q.bookmaker_name = bm
    · subst hbm
      by_cases ho : q.outcome = o
      · subst ho
        rw [if_pos ⟨rfl, rfl, rfl⟩]
        unfold lookup3 oddsStep
        rw [objGet_objSet_self, Option.getD_some, objGet_objSet_self,
          Option.getD_some, objGet_objSet_self]
      · rw [if_neg (fun hc => ho hc.2.2)]
        unfold lookup3 oddsStep
        rw [objGet_objSet_self, Option.getD_some, objGet_objSet_self,
          Option.getD_some, objGet_objSet_ne _ _ _ _ (fun h => ho h.symm)]
    · rw [if_neg (fun hc => hbm hc.2.1)]
      unfold lookup3 oddsStep
      rw [objGet_objSet_self, Option.getD_some,
        objGet_objSet_ne _ _ _ _ (fun h => hbm h.symm)]
  · rw [if_neg (fun hc => hk hc.1)]
    unfold lookup3 oddsStep
    rw [objGet_objSet_ne _ _ _ _ (fun h => hk h.symm)]

theorem lookup3_foldl (oddsData : List OddsQuote) (acc : MarketMap)
    (k bm o : String) :
    lookup3 (oddsData.foldl oddsStep acc) k bm o =
      oOr (oddsLast oddsData k bm o) (lookup3 acc k bm o) := by
  induction oddsData generalizing acc with
  | nil => simp [oddsLast, oOr]
  | cons q rest ih =>
    rw [List.foldl_cons, ih, lookup3_oddsStep, oddsLast_cons, oOr_assoc]
    by_cases h : marketKey q = k ∧ q.bookmaker_name = bm ∧ q.outcome = o
    · rw [if_pos h, if_pos h]
      rfl
    · rw [if_neg h, if_neg h]
      rfl

theorem lookup3_oddsByMarket (oddsData : List OddsQuote) (k bm o : String) :
    lookup3 (oddsByMarket oddsData) k bm o = oddsLast oddsData k bm o := by
  rw [oddsByMarket, lookup3_foldl,
    show lookup3 [] k bm o = none from rfl, oOr_none_right]

theorem lookup2_noVigStep (acc : List (String × OutcomeMap)) (f : FairQuote)
    (mc o : String) :
    lookup2 (noVigStep acc f) mc o =
      if f.market_code = mc ∧ f.outcome = o then some f.no_vig_odds
      else lookup2 acc mc o := by
  by_cases hmc : f.market_code = mc
  · subst hmc
    by_cases ho : f.outcome = o
    · subst ho
      rw [if_pos ⟨rfl, rfl⟩]
      unfold lookup2 noVigStep
      rw [objGet_objSet_self, Option.getD_some, objGet_objSet_self]
    · rw [if_neg (fun hc => ho hc.2)]
      unfold lookup2 noVigStep
      rw [objGet_objSet_self, Option.getD_some,
        objGet_objSet_ne _ _ _ _ (fun h => ho h.symm)]
  · rw [if_neg (fun hc => hmc hc.1)]
    unfold lookup2 noVigStep
    rw [objGet_objSet_ne _ _ _ _ (fun h => hmc h.symm)]

theorem lookup2_foldl (fairData : List FairQuote)
    (acc : List (String × OutcomeMap)) (mc o : String) :
    lookup2 (fairData.foldl noVigStep acc) mc o =
      oOr (fairLast fairData mc o) (lookup2 acc mc o) := by
  induction fairData generalizing acc with
  | nil => simp [fairLast, oOr]
  | cons f rest ih =>
    rw [List.foldl_cons, ih, lookup2_noVigStep, fairLast_cons, oOr_assoc]
    by_cases h : f.market_code = mc ∧ f.outcome = o
    · rw [if_pos h, if_pos h]
      rfl
    · rw [if_neg h, if_neg h]
      rfl

theorem lookup2_noVigByMarket (fairData : List FairQuote) (mc o : String) :
    lookup2 (noVigByMarket fairData) mc o = fairLast fairData mc o := by
  rw [noVigByMarket, lookup2_foldl,
    show lookup2 [] mc o = none from rfl, oOr_none_right]

theorem oddsLast_ne_none_iff (oddsData : List OddsQuote) (k bm o : String) :
    oddsLast oddsData k bm o ≠ none ↔
      ∃ q ∈ oddsData, marketKey q = k ∧ q.bookmaker_name = bm ∧ q.outcome = o := by
  unfold oddsLast
  rw [Ne, Option.map_eq_none', List.getLast?_eq_none_iff, List.filter_eq_nil_iff]
  push_neg
  simp [Bool.and_eq_true, beq_iff_eq, and_assoc]

theorem fairLast_ne_none_iff (fairData : List FairQuote) (mc o : String) :
    fairLast fairData mc o ≠ none ↔
      ∃ f ∈ fairData, f.market_code = mc ∧ f.outcome = o := by
  unfold fairLast
  rw [Ne, Option.map_eq_none', List.getLast?_eq_none_iff, List.filter_eq_nil_iff]
  push_neg
  simp [Bool.and_eq_true, beq_iff_eq]

theorem fairLast_eq_none_iff (fairData : List FairQuote) (mc o : String) :
    fairLast fairData mc o = none ↔
      ∀ f ∈ fairData, ¬(f.market_code = mc ∧ f.outcome = o) := by
  unfold fairLast
  rw [Option.map_eq_none', List.getLast?_eq_none_iff, List.filter_eq_nil_iff]
  simp [Bool.and_eq_true, beq_iff_eq]

/-! Key-set lemmas for the aggregation folds. -/

theorem mem_keysOf_foldl_oddsStep (oddsData : List OddsQuote) (acc : MarketMap)
    (k : String) :
    k ∈ keysOf (oddsData.foldl oddsStep acc) ↔
      k ∈ keysOf acc ∨ ∃ q ∈ oddsData, marketKey q = k := by
  induction oddsData generalizing acc with
  | nil => simp
  | cons q rest ih =>
    rw [List.foldl_cons, ih]
    have hstep : k ∈ keysOf (oddsStep acc q) ↔ k ∈ keysOf acc ∨ k = marketKey q :=
      mem_keysOf_objSet acc (marketKey q) _ k
    rw [hstep]
    constructor
    · rintro ((h | h) | ⟨q', hq', hk⟩)
      · exact Or.inl h
      · exact Or.inr ⟨q, List.mem_cons_self _ _, h.symm⟩
      · exact Or.inr ⟨q', List.mem_cons_of_mem _ hq', hk⟩
    · rintro (h | ⟨q', hq', hk⟩)
      · exact Or.inl (Or.inl h)
      · rcases List.mem_cons.mp hq' with rfl | hmem
        · exact Or.inl (Or.inr hk.symm)
        · exact Or.inr ⟨q', hmem, hk⟩

theorem mem_keysOf_oddsByMarket (oddsData : List OddsQuote) (k : String) :
    k ∈ keysOf (oddsByMarket oddsData) ↔ ∃ q ∈ oddsData, marketKey q = k := by
  rw [oddsByMarket, mem_keysOf_foldl_oddsStep]
  simp [keysOf]

theorem mem_bmKeys_foldl_oddsStep (oddsData : List OddsQuote) (acc : MarketMap)
    (k bm : String) :
    bm ∈ keysOf ((objGet (oddsData.foldl oddsStep acc) k).getD []) ↔
      bm ∈ keysOf ((objGet acc k).getD []) ∨
        ∃ q ∈ oddsData, marketKey q = k ∧ q.bookmaker_name = bm := by
  induction oddsData generalizing acc with
  | nil => simp
  | cons q rest ih =>
    rw [List.foldl_cons, ih]
    have hstep : bm ∈ keysOf ((objGet (oddsStep acc q) k).getD []) ↔
        bm ∈ keysOf ((objGet acc k).getD []) ∨
          (marketKey q = k ∧ bm = q.bookmaker_name) := by
      by_cases hk : marketKey q = k
      · subst hk
        unfold oddsStep
        rw [objGet_objSet_self, Option.getD_some, mem_keysOf_objSet]
        simp
      · unfold oddsStep
        rw [objGet_objSet_ne _ _ _ _ (fun h => hk h.symm)]
        simp [hk]
    rw [hstep]
    constructor
    · rintro ((h | ⟨hk, hbm⟩) | ⟨q', hq', hk, hbm⟩)
      · exact Or.inl h
      · exact Or.inr ⟨q, List.mem_cons_self _ _, hk, hbm.symm⟩
      · exact Or.inr ⟨q', List.mem_cons_of_mem _ hq', hk, hbm⟩
    · rintro (h | ⟨q', hq', hk, hbm⟩)
      · exact Or.inl (Or.inl h)
      · rcases List.mem_cons.mp hq' with rfl | hmem
        · exact Or.inl (Or.inr ⟨hk, hbm.symm⟩)
        · exact Or.inr ⟨q', hmem, hk, hbm⟩

theorem mem_bmKeys_oddsByMarket (oddsData : List OddsQuote) (k bm : String) :
    bm ∈ keysOf ((objGet (oddsByMarket oddsData) k).getD []) ↔
      ∃ q ∈ oddsData, marketKey q = k ∧ q.bookmaker_name = bm := by
  rw [oddsByMarket, mem_bmKeys_foldl_oddsStep]
  simp [objGet, keysOf]

/-! Well-formedness: the aggregated maps have duplicate-free keys. -/

/-- Keys are duplicate-free at the market and bookmaker levels. -/
def WFMarketMap (m : MarketMap) : Prop :=
  (keysOf m).Nodup ∧ ∀ e ∈ m, (keysOf e.2).Nodup

theorem wf_oddsStep (acc : MarketMap) (q : OddsQuote) (h : WFMarketMap acc) :
    WFMarketMap (oddsStep acc q) := by
  obtain ⟨h1, h2⟩ := h
  constructor
  · exact nodup_keysOf_objSet _ _ _ h1
  · intro e he
    rcases mem_of_mem_objSet he with hm | heq
    · exact h2 e hm
    · have hB : (keysOf ((objGet acc (marketKey q)).getD [])).Nodup := by
        cases hg : objGet acc (marketKey q) with
        | none => simp [keysOf]
        | some B => exact h2 (marketKey q, B) (objGet_mem hg)
      rw [heq]
      exact nodup_keysOf_objSet _ _ _ hB

theorem wf_foldl_oddsStep (oddsData : List OddsQuote) (acc : MarketMap)
    (h : WFMarketMap acc) : WFMarketMap (oddsData.foldl oddsStep acc) := by
  induction oddsData generalizing acc with
  | nil => exact h
  | cons q rest ih => exact ih _ (wf_oddsStep _ _ h)

theorem wf_oddsByMarket (oddsData : List OddsQuote) :
    WFMarketMap (oddsByMarket oddsData) :=
  wf_foldl_oddsStep oddsData []
    ⟨List.nodup_nil, fun e he => absurd he (List.not_mem_nil e)⟩

theorem mem_bookie_outcomes_iff (oddsData : List OddsQuote) (k o : String) :
    (∃ e ∈ (objGet (oddsByMarket oddsData) k).getD [], o ∈ keysOf e.2) ↔
      ∃ q ∈ oddsData, marketKey q = k ∧ q.outcome = o := by
  constructor
  · rintro ⟨e, he, ho⟩
    cases hg : objGet (oddsByMarket oddsData) k with
    | none =>
      rw [hg] at he
      simp at he
    | some B =>
      rw [hg] at he
      have hBnd : (keysOf B).Nodup :=
        (wf_oddsByMarket oddsData).2 (k, B) (objGet_mem hg)
      have hget : objGet B e.1 = some e.2 := objGet_of_mem_nodup hBnd he
      have hne : lookup3 (oddsByMarket oddsData) k e.1 o ≠ none := by
        unfold lookup3
        rw [hg, Option.getD_some, hget, Option.getD_some]
        intro hn
        exact (objGet_eq_none_iff _ _).mp hn ho
      rw [lookup3_oddsByMarket] at hne
      obtain ⟨q, hq, h1, _, h3⟩ := (oddsLast_ne_none_iff _ _ _ _).mp hne
      exact ⟨q, hq, h1, h3⟩
  · rintro ⟨q, hq, hk, ho⟩
    have hne : oddsLast oddsData k q.bookmaker_name o ≠ none :=
      (oddsLast_ne_none_iff _ _ _ _).mpr ⟨q, hq, hk, rfl, ho⟩
    rw [← lookup3_oddsByMarket] at hne
    unfold lookup3 at hne
    cases hg : objGet (oddsByMarket oddsData) k with
    | none =>
      rw [hg] at hne
      simp [objGet] at hne
    | some B =>
      rw [hg, Option.getD_some] at hne
      cases hg2 : objGet B q.bookmaker_name with
      | none =>
        rw [hg2] at hne
        simp [objGet] at hne
      | some I =>
        rw [hg2, Option.getD_some] at hne
        refine ⟨(q.bookmaker_name, I), objGet_mem hg2, ?_⟩
        exact not_not.mp (fun hno => hne ((objGet_eq_none_iff I o).mpr hno))

theorem mem_fairKeys_iff (fairData : List FairQuote) (mc o : String) :
    o ∈ keysOf ((objGet (noVigByMarket fairData) mc).getD []) ↔
      ∃ f ∈ fairData, f.market_code = mc ∧ f.outcome = o := by
  have h1 : o ∈ keysOf ((objGet (noVigByMarket fairData) mc).getD []) ↔
      lookup2 (noVigByMarket fairData) mc o ≠ none := by
    unfold lookup2
    constructor
    · intro hm hn
      exact (objGet_eq_none_iff _ _).mp hn hm
    · intro hn
      by_contra hm
      exact hn ((objGet_eq_none_iff _ _).mpr hm)
  rw [h1, lookup2_noVigByMarket]
  exact fairLast_ne_none_iff fairData mc o

/-! Lemmas about the line-suffix regex model. -/

theorem getLast?_mem {α : Type} {l : List α} {a : α} (h : l.getLast? = some a) :
    a ∈ l := by
  induction l with
  | nil => simp at h
  | cons b t ih =>
    rw [getLast?_cons_oOr] at h
    cases ht : t.getLast? with
    | none =>
      rw [ht] at h
      obtain rfl := Option.some.inj h
      exact List.mem_cons_self _ _
    | some x =>
      rw [ht] at h
      obtain rfl := Option.some.inj h
      exact List.mem_cons_of_mem _ (ih ht)

theorem head_dropWhile_mem {p : Char → Bool} {r : List Char} {c : Char}
    {cs : List Char} (h : r.dropWhile p = c :: cs) : c ∈ r := by
  induction r with
  | nil => simp at h
  | cons a r' ih =>
    rw [List.dropWhile_cons] at h
    by_cases hp : p a = true
    · rw [if_pos hp] at h
      exact List.mem_cons_of_mem _ (ih h)
    · rw [if_neg hp] at h
      exact (List.cons.injEq _ _ _ _ ▸ h).1 ▸ List.mem_cons_self _ _

theorem dropWhile_append_of_exists {p : Char → Bool} {r : List Char}
    (t : List Char) (hex : ∃ c ∈ r, p c = false) :
    (r ++ t).dropWhile p = r.dropWhile p ++ t := by
  induction r with
  | nil =>
    obtain ⟨c, hc, _⟩ := hex
    simp at hc
  | cons a r' ih =>
    by_cases hp : p a = true
    · obtain ⟨c, hc, hpc⟩ := hex
      have hc' : c ∈ r' := by
        rcases List.mem_cons.mp hc with rfl | h
        · exact absurd hp (by simp [hpc])
        · exact h
      rw [List.cons_append, List.dropWhile_cons, if_pos hp,
        List.dropWhile_cons, if_pos hp]
      exact ih ⟨c, hc', hpc⟩
    · rw [List.cons_append, List.dropWhile_cons, if_neg hp,
        List.dropWhile_cons, if_neg hp, List.cons_append]

theorem tailCloses_append (xs : List Char)
    (h : ∀ c ∈ xs, isLineTerm c = false) : tailCloses (xs ++ [')']) = true := by
  induction xs with
  | nil => rfl
  | cons c xs ih =>
    have hc := h c (List.mem_cons_self _ _)
    cases xs with
    | nil => simp [tailCloses, hc]
    | cons d xs' =>
      have htail := ih (fun c' hc' => h c' (List.mem_cons_of_mem _ hc'))
      rw [List.cons_append] at htail ⊢
      show (!isLineTerm c && tailCloses (d :: (xs' ++ [')']))) = true
      simp [hc, htail]

theorem lineSuffixMatch_lineTail (l : String)
    (h3 : ∀ c ∈ l.data, isLineTerm c = false) :
    lineSuffixMatch ((" (line " ++ l ++ ")").data) = true := by
  have hdata : (" (line " ++ l ++ ")").data =
      ' ' :: '(' :: 'l' :: 'i' :: 'n' :: 'e' :: ' ' :: (l.data ++ [')']) := by
    rw [String.data_append, String.data_append, List.append_assoc]
    rfl
  unfold lineSuffixMatch
  rw [hdata, List.dropWhile_cons, if_pos (by decide), List.dropWhile_cons,
    if_neg (by decide)]
  rw [show ('(' :: 'l' :: 'i' :: 'n' :: 'e' :: ' ' :: (l.data ++ [')'])).take 5 =
      ['(', 'l', 'i', 'n', 'e'] from rfl,
    show ('(' :: 'l' :: 'i' :: 'n' :: 'e' :: ' ' :: (l.data ++ [')'])).drop 5 =
      ' ' :: (l.data ++ [')']) from rfl]
  have ht : tailCloses ((' ' :: l.data) ++ [')']) = true :=
    tailCloses_append (' ' :: l.data)
      (fun c hc => by
        rcases List.mem_cons.mp hc with rfl | h
        · decide
        · exact h3 c h)
  rw [List.cons_append] at ht
  simp [ht]

theorem lineSuffixMatch_false_of_no_paren (r : List Char)
    (h1 : ∀ c ∈ r, c ≠ '(') : lineSuffixMatch r = false := by
  unfold lineSuffixMatch
  cases hdw : r.dropWhile isJsSpace with
  | nil => rfl
  | cons e es =>
    have hne : e ≠ '(' := h1 e (head_dropWhile_mem hdw)
    have hP : ¬ ((e :: es).take 5 = ['(', 'l', 'i', 'n', 'e']) := by
      intro hEq
      rw [show (5 : Nat) = 4 + 1 from rfl, List.take_succ_cons] at hEq
      exact hne (List.cons.injEq _ _ _ _ ▸ hEq).1
    rw [decide_eq_false hP, Bool.false_and]

theorem lineSuffixMatch_false_append (r t : List Char)
    (hex : ∃ c ∈ r, isJsSpace c = false) (h1 : ∀ c ∈ r, c ≠ '(') :
    lineSuffixMatch (r ++ t) = false := by
  unfold lineSuffixMatch
  rw [dropWhile_append_of_exists t hex]
  cases hdw : r.dropWhile isJsSpace with
  | nil =>
    obtain ⟨c, hc, hpc⟩ := hex
    exact absurd (List.dropWhile_eq_nil_iff.mp hdw c hc) (by simp [hpc])
  | cons e es =>
    have hne : e ≠ '(' := h1 e (head_dropWhile_mem hdw)
    have hP : ¬ ((e :: (es ++ t)).take 5 = ['(', 'l', 'i', 'n', 'e']) := by
      intro hEq
      rw [show (5 : Nat) = 4 + 1 from rfl, List.take_succ_cons] at hEq
      exact hne (List.cons.injEq _ _ _ _ ▸ hEq).1
    rw [List.cons_append, decide_eq_false hP, Bool.false_and]

theorem stripAux_of_no_paren (r : List Char) :
    (∀ c ∈ r, c ≠ '(') → stripAux r = some r ∨ stripAux r = none := by
  induction r with
  | nil => intro _; left; rfl
  | cons c cs ih =>
    intro h1
    rw [stripAux, if_neg (by simp [lineSuffixMatch_false_of_no_paren _ h1])]
    by_cases ht : isLineTerm c = true
    · rw [if_pos ht]
      right
      rfl
    · rw [if_neg ht]
      rcases ih (fun c' hc' => h1 c' (List.mem_cons_of_mem _ hc')) with h | h
      · left
        rw [h]
        rfl
      · right
        rw [h]
        rfl

theorem stripAux_append_lineTail (mcl : List Char) (l : String)
    (h3 : ∀ c ∈ l.data, isLineTerm c = false) :
    (∀ c, mcl.getLast? = some c → isJsSpace c = false) →
    (∀ c ∈ mcl, isLineTerm c = false) →
    (∀ c ∈ mcl, c ≠ '(') →
      stripAux (mcl ++ (" (line " ++ l ++ ")").data) = some mcl := by
  induction mcl with
  | nil =>
    intro _ _ _
    have hmatch := lineSuffixMatch_lineTail l h3
    have hdata : (" (line " ++ l ++ ")").data =
        ' ' :: '(' :: 'l' :: 'i' :: 'n' :: 'e' :: ' ' :: (l.data ++ [')']) := by
      rw [String.data_append, String.data_append, List.append_assoc]
      rfl
    rw [hdata] at hmatch
    rw [List.nil_append, hdata, stripAux, if_pos hmatch]
  | cons c cs ih =>
    intro h2 h4 h1
    have hex : ∃ d ∈ c :: cs, isJsSpace d = false := by
      cases hl : (c :: cs).getLast? with
      | none => exact absurd (List.getLast?_eq_none_iff.mp hl) (by simp)
      | some d => exact ⟨d, getLast?_mem hl, h2 d hl⟩
    have hfalse : lineSuffixMatch ((c :: cs) ++ (" (line " ++ l ++ ")").data) = false :=
      lineSuffixMatch_false_append (c :: cs) _ hex h1
    rw [List.cons_append] at hfalse
    rw [List.cons_append, stripAux, if_neg (by rw [hfalse]; simp),
      if_neg (by simp [h4 c (List.mem_cons_self _ _)])]
    have h2' : ∀ d, cs.getLast? = some d → isJsSpace d = false := by
      intro d hd
      apply h2
      cases cs with
      | nil => simp at hd
      | cons x xs => rw [List.getLast?_cons_cons]; exact hd
    rw [ih h2' (fun c' hc' => h4 c' (List.mem_cons_of_mem _ hc'))
      (fun c' hc' => h1 c' (List.mem_cons_of_mem _ hc'))]
    rfl

theorem stripLineSuffix_mkMarketKey (mc l : String)
    (h1 : mc.data.all (fun c => c != '(') = true)
    (h2 : mc.data.getLast?.all (fun c => !isJsSpace c) = true)
    (h3 : l.data.all (fun c => !isLineTerm c) = true)
    (h4 : mc.data.all (fun c => !isLineTerm c) = true) :
    stripLineSuffix (mkMarketKey mc (some l)) = mc ∧
      stripLineSuffix (mkMarketKey mc none) = mc := by
  have h1' : ∀ c ∈ mc.data, c ≠ '(' := by
    intro c hc
    simpa using List.all_eq_true.mp h1 c hc
  have h2' : ∀ c, mc.data.getLast? = some c → isJsSpace c = false := by
    intro c hc
    rw [hc] at h2
    simpa using h2
  have h3' : ∀ c ∈ l.data, isLineTerm c = false := by
    intro c hc
    simpa using List.all_eq_true.mp h3 c hc
  have h4' : ∀ c ∈ mc.data, isLineTerm c = false := by
    intro c hc
    simpa using List.all_eq_true.mp h4 c hc
  constructor
  · show stripLineSuffix (mc ++ (" (line " ++ l ++ ")")) = mc
    unfold stripLineSuffix
    rw [String.data_append, stripAux_append_lineTail mc.data l h3' h2' h4' h1']
  · show stripLineSuffix mc = mc
    unfold stripLineSuffix
    rcases stripAux_of_no_paren mc.data h1' with h | h
    · rw [h]
    · rw [h]

/-! Lemmas connecting the emitted tables to the table of one key. -/

theorem tableOf_key (fairData : List FairQuote) (oddsData : List OddsQuote)
    (k : String) : (tableOf fairData oddsData k).key = k := rfl

theorem emittedTables_eq (fairData : List FairQuote) (oddsData : List OddsQuote) :
    emittedTables fairData oddsData =
      (marketKeys oddsData).map (tableOf fairData oddsData) := by
  show (match (if (List.insertionSort strLe (keysOf (oddsByMarket oddsData))).isEmpty
        then RenderOutput.noOdds
        else RenderOutput.tables
          ((List.insertionSort strLe (keysOf (oddsByMarket oddsData))).map
            (fun k => renderMarketSection k ((objGet (oddsByMarket oddsData) k).getD [])
              (noVigByMarket fairData)))) with
      | RenderOutput.noOdds => []
      | RenderOutput.tables ts => ts) =
      (marketKeys oddsData).map (tableOf fairData oddsData)
  by_cases h : (List.insertionSort strLe (keysOf (oddsByMarket oddsData))).isEmpty = true
  · rw [if_pos h]
    have hm : marketKeys oddsData = [] := List.isEmpty_iff.mp h
    rw [hm]
    rfl
  · rw [if_neg h]
    rfl

theorem mem_emittedTables (fairData : List FairQuote) (oddsData : List OddsQuote)
    (t : MarketTable) :
    t ∈ emittedTables fairData oddsData ↔
      ∃ k ∈ marketKeys oddsData, t = tableOf fairData oddsData k := by
  rw [emittedTables_eq, List.mem_map]
  constructor
  · rintro ⟨k, hk, heq⟩
    exact ⟨k, hk, heq.symm⟩
  · rintro ⟨k, hk, heq⟩
    exact ⟨k, hk, heq.symm⟩

theorem tableOf_outcomes (fairData : List FairQuote) (oddsData : List OddsQuote)
    (k : String) :
    (tableOf fairData oddsData k).outcomes =
      outcomeColumns (objGet (noVigByMarket fairData) (stripLineSuffix k))
        ((objGet (oddsByMarket oddsData) k).getD []) := rfl

theorem tableOf_noVigRow (fairData : List FairQuote) (oddsData : List OddsQuote)
    (k : String) :
    (tableOf fairData oddsData k).noVigRow =
      (tableOf fairData oddsData k).outcomes.map
        (noVigCell (objGet (noVigByMarket fairData) (stripLineSuffix k))) := rfl

theorem tableOf_rows (fairData : List FairQuote) (oddsData : List OddsQuote)
    (k : String) :
    (tableOf fairData oddsData k).rows =
      (List.insertionSort strLe (keysOf ((objGet (oddsByMarket oddsData) k).getD []))).map
        (fun bm => (bm, (tableOf fairData oddsData k).outcomes.map
          (priceCell ((objGet (oddsByMarket oddsData) k).getD []) bm))) := rfl

/-! Lemmas about the outcome column computation. -/

theorem outcomeColumns_mem (fairInner : Option OutcomeMap) (bookieMap : BookieMap)
    (o : String) :
    o ∈ outcomeColumns fairInner bookieMap ↔
      o ∈ keysOf (fairInner.getD []) ∨ ∃ e ∈ bookieMap, o ∈ keysOf e.2 := by
  show o ∈ List.insertionSort strLe
      (bookieMap.foldl (fun s e => (keysOf e.2).foldl setAdd s)
        (match fairInner with
         | some inner => (keysOf inner).foldl setAdd []
         | none => [])) ↔ _
  rw [(List.perm_insertionSort strLe _).mem_iff, mem_foldl_setAdd_nested]
  cases fairInner with
  | none => simp [keysOf]
  | some inner => simp [mem_foldl_setAdd]

theorem outcomeColumns_sorted (fairInner : Option OutcomeMap)
    (bookieMap : BookieMap) :
    List.Sorted strLe (outcomeColumns fairInner bookieMap) :=
  List.sorted_insertionSort strLe _

theorem outcomeColumns_nodup (fairInner : Option OutcomeMap)
    (bookieMap : BookieMap) : (outcomeColumns fairInner bookieMap).Nodup := by
  have h0 : (match fairInner with
      | some inner => (keysOf inner).foldl setAdd []
      | none => ([] : List String)).Nodup := by
    cases fairInner with
    | none => exact List.nodup_nil
    | some inner => exact nodup_foldl_setAdd _ _ List.nodup_nil
  have h1 := nodup_foldl_setAdd_nested bookieMap _ h0
  exact h1.perm (List.perm_insertionSort strLe _).symm

theorem priceCell_eq_oddsLast (oddsData : List OddsQuote) (k bm o : String) :
    priceCell ((objGet (oddsByMarket oddsData) k).getD []) bm o =
      (match oddsLast oddsData k bm o with
       | some p => Cell.val p
       | none => Cell.dash) := by
  unfold priceCell
  rw [show objGet ((objGet ((objGet (oddsByMarket oddsData) k).getD []) bm).getD []) o =
      lookup3 (oddsByMarket oddsData) k bm o from rfl, lookup3_oddsByMarket]

theorem noVigCell_eq_fairLast (fairData : List FairQuote) (mc o : String) :
    noVigCell (objGet (noVigByMarket fairData) mc) o =
      (match fairLast fairData mc o with
       | none => Cell.dash
       | some v => if v = 0 then Cell.dash else Cell.val v) := by
  unfold noVigCell
  cases hg : objGet (noVigByMarket fairData) mc with
  | none =>
    have hnone : fairLast fairData mc o = none := by
      rw [← lookup2_noVigByMarket]
      unfold lookup2
      rw [hg]
      rfl
    rw [hnone]
  | some inner =>
    have heq : fairLast fairData mc o = objGet inner o := by
      rw [← lookup2_noVigByMarket]
      unfold lookup2
      rw [hg, Option.getD_some]
    rw [heq]

/-! Claim theorems. -/

theorem mkMarketKey_inj (mc : String) (l l' : Option String)
    (h : mkMarketKey mc l = mkMarketKey mc l') : l = l' := by
  have h7 : (" (line " : String).data.length = 7 := rfl
  have h1 : (")" : String).data.length = 1 := rfl
  cases l with
  | none =>
    cases l' with
    | none => rfl
    | some s =>
      exfalso
      have hd : mc.data = (mc ++ (" (line " ++ s ++ ")")).data :=
        congrArg String.data h
      have hlen := congrArg List.length hd
      simp only [String.data_append, List.length_append, List.length_cons,
        List.length_nil] at hlen
      omega
  | some s =>
    cases l' with
    | none =>
      exfalso
      have hd : mc.data = (mc ++ (" (line " ++ s ++ ")")).data :=
        congrArg String.data h.symm
      have hlen := congrArg List.length hd
      simp only [String.data_append, List.length_append, List.length_cons,
        List.length_nil] at hlen
      omega
    | some s' =>
      have hd : (mc ++ (" (line " ++ s ++ ")")).data =
          (mc ++ (" (line " ++ s' ++ ")")).data := congrArg String.data h
      simp only [String.data_append, List.append_assoc] at hd
      have h3 := List.append_cancel_left (List.append_cancel_left hd)
      have h4 := List.append_cancel_right h3
      exact congrArg some (String.ext h4)

/-- C1: for every odds feed, the emitted market keys are exactly the keys
of the distinct (market_code, line) pairs of the feed; quotes with the
same market code but different lines get distinct keys, and an absent
line yields the bare market code as the key. -/
theorem c1_market_keys (oddsData : List OddsQuote) :
    (∀ k, k ∈ marketKeys oddsData ↔ ∃ q ∈ oddsData, marketKey q = k) ∧
      (∀ q q' : OddsQuote, q.market_code = q'.market_code → q.line ≠ q'.line →
        marketKey q ≠ marketKey q') ∧
      ∀ q : OddsQuote, q.line = none → marketKey q = q.market_code := by
  refine ⟨?_, ?_, ?_⟩
  · intro k
    rw [marketKeys, (List.perm_insertionSort strLe _).mem_iff,
      mem_keysOf_oddsByMarket]
  · intro q q' hmc hline heq
    apply hline
    unfold marketKey at heq
    rw [← hmc] at heq
    exact mkMarketKey_inj _ _ _ heq
  · intro q h
    unfold marketKey
    rw [h]
    rfl

theorem c1_market_keys_witness :
    marketKey ⟨"total", "over", "A", 2, some "1.5"⟩ ≠
      marketKey ⟨"total", "over", "A", 2, some "2.5"⟩ :=
  (c1_market_keys []).2.1 _ _ rfl (by decide)

/-- C2 (amended): in the primary aggregator the outcome columns are
exactly the sorted duplicate-free union of the fair-feed outcomes for
the base market code and the odds-feed outcomes for the market key; the
app variant's h2h table instead takes only the odds-feed outcomes. -/
theorem c2_outcome_columns (fairData : List FairQuote) (oddsData : List OddsQuote)
    (t : MarketTable) (ht : t ∈ emittedTables fairData oddsData) :
    List.Sorted strLe t.outcomes ∧ t.outcomes.Nodup ∧
      ∀ o, o ∈ t.outcomes ↔
        (∃ f ∈ fairData, f.market_code = stripLineSuffix t.key ∧ f.outcome = o) ∨
        ∃ q ∈ oddsData, marketKey q = t.key ∧ q.outcome = o := by
  obtain ⟨k, hk, rfl⟩ := (mem_emittedTables _ _ _).mp ht
  rw [tableOf_key]
  refine ⟨?_, ?_, ?_⟩
  · rw [tableOf_outcomes]
    exact outcomeColumns_sorted _ _
  · rw [tableOf_outcomes]
    exact outcomeColumns_nodup _ _
  · intro o
    rw [tableOf_outcomes, outcomeColumns_mem, mem_fairKeys_iff,
      mem_bookie_outcomes_iff]

theorem c2_outcome_columns_witness :
    List.Sorted strLe
      (tableOf [⟨"h2h", "draw", 0, 3, 0, "Pinnacle"⟩]
        [⟨"h2h", "home", "A", 2, none⟩] "h2h").outcomes ∧
    ("home" ∈ (tableOf [⟨"h2h", "draw", 0, 3, 0, "Pinnacle"⟩]
        [⟨"h2h", "home", "A", 2, none⟩] "h2h").outcomes ↔
      (∃ f ∈ [(⟨"h2h", "draw", 0, 3, 0, "Pinnacle"⟩ : FairQuote)],
        f.market_code = stripLineSuffix (tableOf [⟨"h2h", "draw", 0, 3, 0, "Pinnacle"⟩]
          [⟨"h2h", "home", "A", 2, none⟩] "h2h").key ∧ f.outcome = "home") ∨
      ∃ q ∈ [(⟨"h2h", "home", "A", 2, none⟩ : OddsQuote)],
        marketKey q = (tableOf [⟨"h2h", "draw", 0, 3, 0, "Pinnacle"⟩]
          [⟨"h2h", "home", "A", 2, none⟩] "h2h").key ∧ q.outcome = "home") :=
  ⟨(c2_outcome_columns [⟨"h2h", "draw", 0, 3, 0, "Pinnacle"⟩]
      [⟨"h2h", "home", "A", 2, none⟩] _ (by decide)).1,
    (c2_outcome_columns [⟨"h2h", "draw", 0, 3, 0, "Pinnacle"⟩]
      [⟨"h2h", "home", "A", 2, none⟩] _ (by decide)).2.2 "home"⟩

theorem c2_union_cex :
    appH2hOutcomes [⟨"h2h", "home", "A", 2, none⟩] = ["home"] ∧
      (∃ f ∈ [(⟨"h2h", "away", 0, 3, 0, "Pinnacle"⟩ : FairQuote)],
        f.market_code = "h2h" ∧ f.outcome = "away") ∧
      "away" ∉ appH2hOutcomes [⟨"h2h", "home", "A", 2, none⟩] := by decide

/-- C3 (amended): in the primary aggregator an empty odds feed yields
exactly the no-odds notice (the fair feed has no effect); the app
variant shows the notice in the odds container but still renders the
fair cards from the fair feed. -/
theorem c3_empty_odds (fairData : List FairQuote) :
    renderMarkets fairData [] = RenderOutput.noOdds ∧
      (appLoadMatchDetails [] fairData).oddsEmptyNotice = true ∧
      (appLoadMatchDetails [] fairData).fairSection = fairData := by
  refine ⟨rfl, rfl, ?_⟩
  show (if fairData.isEmpty then [] else fairData) = fairData
  cases fairData <;> rfl

theorem c3_fair_leaks_cex :
    (appLoadMatchDetails []
        [⟨"h2h", "home", 0, 2, 0, "Pinnacle"⟩]).oddsEmptyNotice = true ∧
      (appLoadMatchDetails []
        [⟨"h2h", "home", 0, 2, 0, "Pinnacle"⟩]).fairSection ≠ [] := by decide

/-- C4: the aggregator is a pure deterministic function of the two
feeds: equal inputs give equal output table structures. -/
theorem c4_deterministic (fair1 fair2 : List FairQuote)
    (odds1 odds2 : List OddsQuote) (hf : fair1 = fair2) (ho : odds1 = odds2) :
    renderMarkets fair1 odds1 = renderMarkets fair2 odds2 := by
  rw [hf, ho]

theorem c4_deterministic_witness :
    renderMarkets [] [] = renderMarkets [] [] :=
  c4_deterministic [] [] [] [] rfl rfl

/-- C5 (amended): in the primary aggregator the reference row shows the
last fair-feed value for the exact (base market code, outcome) pair when
that value is non-zero, and the placeholder when no entry exists or the
entry's value is the falsy 0 — a zero no-vig value is not displayed. -/
theorem c5_no_vig_row (fairData : List FairQuote) (oddsData : List OddsQuote)
    (t : MarketTable) (ht : t ∈ emittedTables fairData oddsData) :
    t.noVigRow = t.outcomes.map (fun o =>
        match fairLast fairData (stripLineSuffix t.key) o with
        | none => Cell.dash
        | some v => if v = 0 then Cell.dash else Cell.val v) ∧
      ∀ mc o, (fairLast fairData mc o = none ↔
        ∀ f ∈ fairData, ¬(f.market_code = mc ∧ f.outcome = o)) := by
  obtain ⟨k, hk, rfl⟩ := (mem_emittedTables _ _ _).mp ht
  rw [tableOf_key]
  constructor
  · rw [tableOf_noVigRow]
    exact List.map_congr_left (fun o _ => noVigCell_eq_fairLast fairData _ o)
  · intro mc o
    exact fairLast_eq_none_iff fairData mc o

theorem c5_no_vig_row_witness :
    (tableOf [⟨"h2h", "home", 0, 2, 0, "Pinnacle"⟩]
        [⟨"h2h", "home", "A", 2, none⟩] "h2h").noVigRow =
      (tableOf [⟨"h2h", "home", 0, 2, 0, "Pinnacle"⟩]
        [⟨"h2h", "home", "A", 2, none⟩] "h2h").outcomes.map (fun o =>
          match fairLast [⟨"h2h", "home", 0, 2, 0, "Pinnacle"⟩]
            (stripLineSuffix (tableOf [⟨"h2h", "home", 0, 2, 0, "Pinnacle"⟩]
              [⟨"h2h", "home", "A", 2, none⟩] "h2h").key) o with
          | none => Cell.dash
          | some v => if v = 0 then Cell.dash else Cell.val v) :=
  (c5_no_vig_row [⟨"h2h", "home", 0, 2, 0, "Pinnacle"⟩]
    [⟨"h2h", "home", "A", 2, none⟩] _ (by decide)).1

theorem c5_zero_novig_cex :
    (emittedTables [⟨"h2h", "home", 0, 0, 0, "Pinnacle"⟩]
        [⟨"h2h", "home", "A", 2, none⟩]).map (fun t => t.noVigRow) = [[Cell.dash]] ∧
      (∃ f ∈ [(⟨"h2h", "home", 0, 0, 0, "Pinnacle"⟩ : FairQuote)],
        f.market_code = "h2h" ∧ f.outcome = "home" ∧ f.no_vig_odds = 0) := by decide

/-- C6: in the aggregated odds mapping each (market key, bookmaker,
outcome) triple holds at most one price, the one of the quote occurring
last in the feed; duplicates are overwritten silently. -/
theorem c6_last_write_wins (oddsData : List OddsQuote) (k bm o : String) :
    lookup3 (oddsByMarket oddsData) k bm o = oddsLast oddsData k bm o :=
  lookup3_oddsByMarket oddsData k bm o

/-- C7 (amended): in the primary aggregator each emitted table has one
row per distinct bookmaker of the market's quotes, sorted by name, and
each cell shows the bookmaker's last price for that outcome or the
placeholder when no quote exists; the app variant's h2h table emits the
rows in first-occurrence order instead of sorted order. -/
theorem c7_bookmaker_rows (fairData : List FairQuote) (oddsData : List OddsQuote)
    (t : MarketTable) (ht : t ∈ emittedTables fairData oddsData) :
    List.Sorted strLe (t.rows.map Prod.fst) ∧ (t.rows.map Prod.fst).Nodup ∧
      (∀ bm, bm ∈ t.rows.map Prod.fst ↔
        ∃ q ∈ oddsData, marketKey q = t.key ∧ q.bookmaker_name = bm) ∧
      ∀ r ∈ t.rows, r.2 = t.outcomes.map (fun o =>
        match oddsLast oddsData t.key r.1 o with
        | some p => Cell.val p
        | none => Cell.dash) := by
  obtain ⟨k, hk, rfl⟩ := (mem_emittedTables _ _ _).mp ht
  rw [tableOf_key]
  have hfst : (tableOf fairData oddsData k).rows.map Prod.fst =
      List.insertionSort strLe (keysOf ((objGet (oddsByMarket oddsData) k).getD [])) := by
    rw [tableOf_rows, List.map_map]
    exact List.map_id _
  refine ⟨?_, ?_, ?_, ?_⟩
  · rw [hfst]
    exact List.sorted_insertionSort strLe _
  · rw [hfst]
    have hnd : (keysOf ((objGet (oddsByMarket oddsData) k).getD [])).Nodup := by
      cases hg : objGet (oddsByMarket oddsData) k with
      | none => simp [keysOf]
      | some B => exact (wf_oddsByMarket oddsData).2 (k, B) (objGet_mem hg)
    exact hnd.perm (List.perm_insertionSort strLe _).symm
  · intro bm
    rw [hfst, (List.perm_insertionSort strLe _).mem_iff, mem_bmKeys_oddsByMarket]
  · intro r hr
    rw [tableOf_rows] at hr
    obtain ⟨bm, _, rfl⟩ := List.mem_map.mp hr
    exact List.map_congr_left (fun o _ => priceCell_eq_oddsLast oddsData k bm o)

theorem c7_bookmaker_rows_witness :
    List.Sorted strLe
      ((tableOf [] [⟨"h2h", "home", "A", 2, none⟩] "h2h").rows.map Prod.fst) ∧
    (("A", [Cell.val 2]) : String × List Cell).2 =
      (tableOf [] [⟨"h2h", "home", "A", 2, none⟩] "h2h").outcomes.map (fun o =>
        match oddsLast [⟨"h2h", "home", "A", 2, none⟩]
          (tableOf [] [⟨"h2h", "home", "A", 2, none⟩] "h2h").key
          (("A", [Cell.val 2]) : String × List Cell).1 o with
        | some p => Cell.val p
        | none => Cell.dash) :=
  ⟨(c7_bookmaker_rows [] [⟨"h2h", "home", "A", 2, none⟩] _ (by decide)).1,
    (c7_bookmaker_rows [] [⟨"h2h", "home", "A", 2, none⟩] _ (by decide)).2.2.2
      ("A", [Cell.val 2]) (by decide)⟩

theorem c7_unsorted_rows_cex :
    appH2hBookmakers
        [⟨"h2h", "home", "B", 2, none⟩, ⟨"h2h", "home", "A", 3, none⟩] = ["B", "A"] ∧
      ¬ List.Sorted strLe
        (appH2hBookmakers
          [⟨"h2h", "home", "B", 2, none⟩, ⟨"h2h", "home", "A", 3, none⟩]) := by decide

/-- C8 (amended): the primary aggregator emits its tables in ascending
lexicographic order of the composite key, independently of the feed
order; the app variant emits its market cards in first-occurrence order
of the market code instead. -/
theorem c8_market_order (fairData : List FairQuote) (odds1 odds2 : List OddsQuote)
    (hperm : odds1.Perm odds2) :
    List.Sorted strLe ((emittedTables fairData odds1).map (fun t => t.key)) ∧
      marketKeys odds1 = marketKeys odds2 := by
  constructor
  · have hkeys : (emittedTables fairData odds1).map (fun t => t.key) =
        marketKeys odds1 := by
      rw [emittedTables_eq, List.map_map]
      exact List.map_id _
    rw [hkeys]
    exact List.sorted_insertionSort strLe _
  · have h1 : (marketKeys odds1).Nodup :=
      ((wf_oddsByMarket odds1).1).perm (List.perm_insertionSort strLe _).symm
    have h2 : (marketKeys odds2).Nodup :=
      ((wf_oddsByMarket odds2).1).perm (List.perm_insertionSort strLe _).symm
    have hmem : ∀ k, k ∈ marketKeys odds1 ↔ k ∈ marketKeys odds2 := by
      intro k
      rw [marketKeys, marketKeys, (List.perm_insertionSort strLe _).mem_iff,
        (List.perm_insertionSort strLe _).mem_iff, mem_keysOf_oddsByMarket,
        mem_keysOf_oddsByMarket]
      constructor
      · rintro ⟨q, hq, hk⟩
        exact ⟨q, hperm.mem_iff.mp hq, hk⟩
      · rintro ⟨q, hq, hk⟩
        exact ⟨q, hperm.mem_iff.mpr hq, hk⟩
    exact List.eq_of_perm_of_sorted
      ((List.perm_ext_iff_of_nodup h1 h2).mpr hmem)
      (List.sorted_insertionSort strLe _) (List.sorted_insertionSort strLe _)

theorem c8_market_order_witness :
    List.Sorted strLe
      ((emittedTables [] [⟨"h2h", "home", "A", 2, none⟩]).map (fun t => t.key)) ∧
      marketKeys [⟨"h2h", "home", "A", 2, none⟩] =
        marketKeys [⟨"h2h", "home", "A", 2, none⟩] :=
  c8_market_order [] _ _ (List.Perm.refl _)

theorem c8_unsorted_markets_cex :
    (appLoadMatchDetails
        [⟨"b", "home", "A", 2, none⟩, ⟨"a", "home", "A", 2, none⟩] []).marketCodes
        = ["b", "a"] ∧
      ¬ List.Sorted strLe
        ((appLoadMatchDetails
          [⟨"b", "home", "A", 2, none⟩, ⟨"a", "home", "A", 2, none⟩] []).marketCodes) := by
  decide

/-- C9 (amended): stripping the line suffix from a composite market key
recovers the original market code whenever the code contains no opening
parenthesis and no line terminator and does not end in whitespace, and
the line value contains no line terminator.  Without these conditions
recovery can fail in two ways: a code containing a `(line` marker is
cut at that marker, and a code containing a line terminator makes the
anchored regex fail, so the fallback keeps the full composite key. -/
theorem c9_base_roundtrip (mc l : String)
    (h1 : mc.data.all (fun c => c != '(') = true)
    (h2 : mc.data.getLast?.all (fun c => !isJsSpace c) = true)
    (h3 : l.data.all (fun c => !isLineTerm c) = true)
    (h4 : mc.data.all (fun c => !isLineTerm c) = true) :
    stripLineSuffix (mkMarketKey mc (some l)) = mc ∧
      stripLineSuffix (mkMarketKey mc none) = mc :=
  stripLineSuffix_mkMarketKey mc l h1 h2 h3 h4

theorem c9_base_roundtrip_witness :
    stripLineSuffix (mkMarketKey "totals" (some "2.5")) = "totals" ∧
      stripLineSuffix (mkMarketKey "totals" none) = "totals" :=
  c9_base_roundtrip "totals" "2.5" (by decide) (by decide) (by decide) (by decide)

theorem c9_roundtrip_cex :
    stripLineSuffix (mkMarketKey "x (line 1)" none) ≠ "x (line 1)" := by decide

/-- C10: the match cards are rendered in ascending order of the parsed
start time; the list is a permutation of the fetched one, sorted in
place, so the caller's array holds the sorted list after the call. -/
theorem c10_matches_sorted (ms : List MatchItem) :
    (renderMatches ms).Perm ms ∧ List.Sorted matchLe (renderMatches ms) :=
  ⟨List.perm_insertionSort matchLe ms, List.sorted_insertionSort matchLe ms⟩

end OddsBot
